import Mathlib

/-!
Shallow embedding of the dataset-preparation pipeline of `train.py`
(wav2vec2 fine-tuning script): vocabulary builder, audio loader,
feature/label encoder precondition, CTC batch collator, and metric
computation, together with theorems settling the specification claims.
-/

set_option autoImplicit false

namespace Wav2Vec2FT

/-! ## Python dict model

Python dicts are insertion-ordered maps with unique keys.  We model them as
association lists `List (String × Nat)` whose keys are pairwise distinct,
with the three primitive operations the source uses: read (`d[k]`, which
raises `KeyError` when absent, hence `Option`), write (`d[k] = v`, which
updates in place when the key exists and appends otherwise), and delete
(`del d[k]`). -/

/-- Read `d[k]`: the value of the first entry with key `k`, if any. -/
def dictGet (d : List (String × Nat)) (k : String) : Option Nat :=
  (d.find? (fun p => p.1 = k)).map Prod.snd

/-- Write `d[k] = v`: update the entry in place when the key is present,
append a new entry otherwise. -/
def dictSet (d : List (String × Nat)) (k : String) (v : Nat) : List (String × Nat) :=
  if k ∈ d.map Prod.fst then
    d.map (fun p => if p.1 = k then (k, v) else p)
  else d ++ [(k, v)]

/-- Delete `del d[k]`: remove the entry with key `k`. -/
def dictDel (d : List (String × Nat)) (k : String) : List (String × Nat) :=
  d.filter (fun p => p.1 ≠ k)

/-! ## Vocabulary builder (`extract_all_chars`, `make_vocab`)

`extract_all_chars` joins a split's transcripts with `" "` and takes the set
of characters of the result.  `make_vocab` enumerates the union of the two
splits' character sets into the dict `{v: k for k, v in enumerate(vocab_list)}`,
transfers the id of the literal space `" "` to the word delimiter `"|"`,
deletes the space entry, and appends `"[UNK]"` and `"[PAD]"` with the next
two ids.  Python's `list(set(...))` enumeration order is unspecified, so
`make_vocab` below takes the enumeration `vocab_list` as its argument; the
theorems quantify over every enumeration of the character set. -/

/-- Character set of one split: the set of characters of
`" ".join(batch["transcript"])`, as a duplicate-free list. -/
def extract_all_chars (transcripts : List String) : List Char :=
  (String.intercalate " " transcripts).toList.dedup

/-- The dict comprehension `{v: k for k, v in enumerate(vocab_list)}`,
with Python's 1-character string keys. -/
def enumDict : Nat → List Char → List (String × Nat)
  | _, [] => []
  | n, c :: cs => (c.toString, n) :: enumDict (n + 1) cs

/-- Lines 52-57 of `train.py`, on a given enumeration `vocab_list` of the
union character set.  `vocab_dict["|"] = vocab_dict[" "]` raises `KeyError`
when no space character was collected, hence the `Option` result; the
`vocab.json` file write is the returned dict serialized. -/
def make_vocab (vocab_list : List Char) : Option (List (String × Nat)) :=
  let vocab_dict := enumDict 0 vocab_list
  match dictGet vocab_dict " " with
  | none => none
  | some i =>
    let d1 := dictDel (dictSet vocab_dict "|" i) " "
    let d2 := dictSet d1 "[UNK]" d1.length
    let d3 := dictSet d2 "[PAD]" d2.length
    some d3

example : (extract_all_chars ["hi there", "hi"]).toFinset =
    ({'h', 'i', ' ', 't', 'e', 'r'} : Finset Char) := by decide

example : make_vocab ['h', 'i', ' ', 't', 'e', 'r'] =
    some [("h", 0), ("i", 1), ("t", 3), ("e", 4), ("r", 5), ("|", 2),
          ("[UNK]", 6), ("[PAD]", 7)] := by decide

example : make_vocab ['|', ' ', 'a'] =
    some [("|", 1), ("a", 2), ("[UNK]", 2), ("[PAD]", 3)] := by decide

example : make_vocab ['a', 'b'] = none := by decide

/-! ### Dict and enumeration lemmas -/

theorem char_toString_injective : Function.Injective Char.toString := by
  intro a b h
  have h2 : [a] = [b] := congrArg String.data h
  injection h2

theorem ne_toString_of_length {s : String} (c : Char) (h : s.data.length ≠ 1) :
    s ≠ c.toString := by
  intro he
  subst he
  exact h rfl

theorem enumDict_length (n : Nat) (vl : List Char) :
    (enumDict n vl).length = vl.length := by
  induction vl generalizing n with
  | nil => rfl
  | cons c cs ih => simp [enumDict, ih]

theorem enumDict_keys (n : Nat) (vl : List Char) :
    (enumDict n vl).map Prod.fst = vl.map Char.toString := by
  induction vl generalizing n with
  | nil => rfl
  | cons c cs ih => simp [enumDict, ih]

theorem enumDict_ids (n : Nat) (vl : List Char) :
    (enumDict n vl).map Prod.snd = List.range' n vl.length := by
  induction vl generalizing n with
  | nil => rfl
  | cons c cs ih => simp [enumDict, ih, List.range'_succ]

theorem dictGet_enumDict (n : Nat) (vl : List Char) (c : Char) (h : c ∈ vl) :
    dictGet (enumDict n vl) c.toString = some (n + vl.indexOf c) := by
  induction vl generalizing n with
  | nil => cases h
  | cons a cs ih =>
    by_cases hac : a = c
    · subst hac
      simp [dictGet, enumDict, List.find?_cons_of_pos]
    · have hc : c ∈ cs := by
        cases h with
        | head => exact absurd rfl hac
        | tail _ h => exact h
      have hne : ¬ (a.toString = c.toString) := fun he => hac (char_toString_injective he)
      rw [enumDict, dictGet, List.find?_cons_of_neg _ (by simpa using hne), ← dictGet, ih _ hc,
        List.indexOf_cons_ne _ (by simpa using hac)]
      congr 1
      omega

theorem find_key_eq_none {d : List (String × Nat)} {k : String}
    (h : k ∉ d.map Prod.fst) : d.find? (fun p => p.1 = k) = none := by
  rw [List.find?_eq_none]
  intro p hp hpk
  exact h (List.mem_map.2 ⟨p, hp, of_decide_eq_true hpk⟩)

theorem dictGet_eq_none {d : List (String × Nat)} {k : String}
    (h : k ∉ d.map Prod.fst) : dictGet d k = none := by
  rw [dictGet, find_key_eq_none h]
  rfl

theorem dictGet_mem {d : List (String × Nat)} {k : String} {v : Nat}
    (h : dictGet d k = some v) : (k, v) ∈ d := by
  rw [dictGet] at h
  obtain ⟨p, hp, hpv⟩ := Option.map_eq_some.1 h
  have hk : p.1 = k := by simpa using List.find?_some hp
  have hm := List.mem_of_find?_eq_some hp
  have : p = (k, v) := by
    cases p
    simp_all
  exact this ▸ hm

theorem dictGet_append_of_not_mem_left {d e : List (String × Nat)} {k : String}
    (h : k ∉ d.map Prod.fst) : dictGet (d ++ e) k = dictGet e k := by
  rw [dictGet, List.find?_append, find_key_eq_none h, dictGet]
  rfl

theorem dictSet_of_not_mem {d : List (String × Nat)} {k : String} (v : Nat)
    (h : k ∉ d.map Prod.fst) : dictSet d k v = d ++ [(k, v)] := by
  simp [dictSet, h]

theorem dictDel_append (d e : List (String × Nat)) (k : String) :
    dictDel (d ++ e) k = dictDel d k ++ dictDel e k := by
  simp [dictDel]

theorem dictDel_keys (d : List (String × Nat)) (k : String) :
    (dictDel d k).map Prod.fst = (d.map Prod.fst).filter (fun s => s ≠ k) := by
  induction d with
  | nil => rfl
  | cons p tl ih =>
    by_cases hp : p.1 = k <;> simp [dictDel, List.filter_cons, hp] <;>
      simpa [dictDel] using ih

theorem not_mem_keys_dictDel (d : List (String × Nat)) (k : String) :
    k ∉ (dictDel d k).map Prod.fst := by
  rw [dictDel_keys]
  intro hm
  have := (List.mem_filter.1 hm).2
  simp at this

theorem dictDel_of_not_mem {d : List (String × Nat)} {k : String}
    (h : k ∉ d.map Prod.fst) : dictDel d k = d := by
  rw [dictDel, List.filter_eq_self]
  intro p hp
  simp only [ne_eq, decide_eq_true_eq]
  intro hpk
  exact h (List.mem_map.2 ⟨p, hp, hpk⟩)

theorem perm_dictDel {d : List (String × Nat)} {k : String} {v : Nat}
    (hnd : (d.map Prod.fst).Nodup) (hmem : (k, v) ∈ d) :
    d.Perm ((k, v) :: dictDel d k) := by
  induction d with
  | nil => cases hmem
  | cons p tl ih =>
    rw [List.map_cons, List.nodup_cons] at hnd
    cases hmem with
    | head =>
      have : dictDel ((k, v) :: tl) k = dictDel tl k := by
        simp [dictDel]
      rw [this, dictDel_of_not_mem hnd.1]
    | tail _ hm =>
      have hpk : p.1 ≠ k := by
        intro he
        exact hnd.1 (he ▸ List.mem_map_of_mem Prod.fst hm)
      have hdel : dictDel (p :: tl) k = p :: dictDel tl k := by
        simp [dictDel, List.filter_cons, hpk]
      rw [hdel]
      exact (List.Perm.cons p (ih hnd.2 hm)).trans (List.Perm.swap (k, v) p _)

/-! ### Structural description of `make_vocab` on a well-formed character set -/

theorem keys_nodup (vl : List Char) (hnd : vl.Nodup) :
    ((enumDict 0 vl).map Prod.fst).Nodup := by
  rw [enumDict_keys]
  exact hnd.map char_toString_injective

theorem bar_not_mem_keys (vl : List Char) (hbar : '|' ∉ vl) :
    "|" ∉ vl.map Char.toString := by
  intro hm
  obtain ⟨c, hc, hcs⟩ := List.mem_map.1 hm
  have hcs' : c.toString = ('|').toString := hcs
  exact hbar (char_toString_injective hcs' ▸ hc)

theorem make_vocab_eq (vl : List Char) (hnd : vl.Nodup) (hsp : ' ' ∈ vl)
    (hbar : '|' ∉ vl) :
    make_vocab vl =
      some (dictDel (enumDict 0 vl) " " ++
        [("|", vl.indexOf ' '), ("[UNK]", vl.length), ("[PAD]", vl.length + 1)]) := by
  have hkey : dictGet (enumDict 0 vl) " " = some (vl.indexOf ' ') := by
    simpa using dictGet_enumDict 0 vl ' ' hsp
  have hbar0 : "|" ∉ (enumDict 0 vl).map Prod.fst := by
    rw [enumDict_keys]
    exact bar_not_mem_keys vl hbar
  have hset1 : dictSet (enumDict 0 vl) "|" (vl.indexOf ' ') =
      enumDict 0 vl ++ [("|", vl.indexOf ' ')] := dictSet_of_not_mem _ hbar0
  have hdel1 : dictDel (enumDict 0 vl ++ [("|", vl.indexOf ' ')]) " " =
      dictDel (enumDict 0 vl) " " ++ [("|", vl.indexOf ' ')] := by
    rw [dictDel_append]
    congr 1
  have hmem0 : (" ", vl.indexOf ' ') ∈ enumDict 0 vl := dictGet_mem hkey
  have hperm : (enumDict 0 vl).Perm
      ((" ", vl.indexOf ' ') :: dictDel (enumDict 0 vl) " ") :=
    perm_dictDel (keys_nodup vl hnd) hmem0
  have hlen : (dictDel (enumDict 0 vl) " ").length + 1 = vl.length := by
    have := hperm.length_eq
    rw [enumDict_length, List.length_cons] at this
    omega
  have hkeys_del : ∀ s : String, s ∈ (dictDel (enumDict 0 vl) " ").map Prod.fst →
      s ∈ vl.map Char.toString := by
    intro s hs
    rw [dictDel_keys, enumDict_keys] at hs
    exact (List.mem_filter.1 hs).1
  have hunk_notmem : "[UNK]" ∉
      (dictDel (enumDict 0 vl) " " ++ [("|", vl.indexOf ' ')]).map Prod.fst := by
    rw [List.map_append]
    intro hm
    rcases List.mem_append.1 hm with hm | hm
    · obtain ⟨c, _, hcs⟩ := List.mem_map.1 (hkeys_del _ hm)
      exact ne_toString_of_length c (by decide) hcs.symm
    · simp at hm
  have hlen1 : (dictDel (enumDict 0 vl) " " ++ [("|", vl.indexOf ' ')]).length =
      vl.length := by
    rw [List.length_append]
    simpa using hlen
  have hset2 : dictSet (dictDel (enumDict 0 vl) " " ++ [("|", vl.indexOf ' ')])
        "[UNK]" vl.length =
      dictDel (enumDict 0 vl) " " ++ [("|", vl.indexOf ' '), ("[UNK]", vl.length)] := by
    rw [dictSet_of_not_mem _ hunk_notmem, List.append_assoc]
    rfl
  have hpad_notmem : "[PAD]" ∉
      (dictDel (enumDict 0 vl) " " ++
        [("|", vl.indexOf ' '), ("[UNK]", vl.length)]).map Prod.fst := by
    rw [List.map_append]
    intro hm
    rcases List.mem_append.1 hm with hm | hm
    · obtain ⟨c, _, hcs⟩ := List.mem_map.1 (hkeys_del _ hm)
      exact ne_toString_of_length c (by decide) hcs.symm
    · simp at hm
  have hlen2 : (dictDel (enumDict 0 vl) " " ++
      [("|", vl.indexOf ' '), ("[UNK]", vl.length)]).length = vl.length + 1 := by
    rw [List.length_append]
    simp only [List.length_cons, List.length_nil]
    omega
  have hset3 : dictSet (dictDel (enumDict 0 vl) " " ++
        [("|", vl.indexOf ' '), ("[UNK]", vl.length)]) "[PAD]" (vl.length + 1) =
      dictDel (enumDict 0 vl) " " ++
        [("|", vl.indexOf ' '), ("[UNK]", vl.length), ("[PAD]", vl.length + 1)] := by
    rw [dictSet_of_not_mem _ hpad_notmem, List.append_assoc]
    rfl
  rw [make_vocab, hkey]
  simp only [hset1, hdel1, hlen1, hset2, hlen2, hset3]

/-- The explicit shape of the dict `make_vocab` produces on a well-formed
enumeration, used to derive its invariants. -/
def vocabShape (vl : List Char) : List (String × Nat) :=
  dictDel (enumDict 0 vl) " " ++
    [("|", vl.indexOf ' '), ("[UNK]", vl.length), ("[PAD]", vl.length + 1)]

theorem space_pair_mem (vl : List Char) (hsp : ' ' ∈ vl) :
    (" ", vl.indexOf ' ') ∈ enumDict 0 vl :=
  dictGet_mem (by simpa using dictGet_enumDict 0 vl ' ' hsp)

theorem del_length (vl : List Char) (hnd : vl.Nodup) (hsp : ' ' ∈ vl) :
    (dictDel (enumDict 0 vl) " ").length + 1 = vl.length := by
  have hperm := perm_dictDel (keys_nodup vl hnd) (space_pair_mem vl hsp)
  have := hperm.length_eq
  rw [enumDict_length, List.length_cons] at this
  omega

theorem vocabShape_length (vl : List Char) (hnd : vl.Nodup) (hsp : ' ' ∈ vl) :
    (vocabShape vl).length = vl.length + 2 := by
  rw [vocabShape, List.length_append]
  have := del_length vl hnd hsp
  simp only [List.length_cons, List.length_nil]
  omega

theorem vocabShape_keys (vl : List Char) :
    (vocabShape vl).map Prod.fst =
      ((vl.map Char.toString).filter (fun s => s ≠ " ")) ++ ["|", "[UNK]", "[PAD]"] := by
  rw [vocabShape, List.map_append, dictDel_keys, enumDict_keys]
  rfl

theorem vocabShape_ids_perm (vl : List Char) (hnd : vl.Nodup) (hsp : ' ' ∈ vl) :
    ((vocabShape vl).map Prod.snd).Perm (List.range (vl.length + 2)) := by
  have hperm := (perm_dictDel (keys_nodup vl hnd) (space_pair_mem vl hsp)).map Prod.snd
  rw [enumDict_ids, ← List.range_eq_range', List.map_cons] at hperm
  have h1 : ((dictDel (enumDict 0 vl) " ").map Prod.snd ++ [vl.indexOf ' ']).Perm
      (List.range vl.length) :=
    (List.perm_append_singleton _ _).trans hperm.symm
  have h2 := h1.append_right [vl.length, vl.length + 1]
  have heq : List.range vl.length ++ [vl.length, vl.length + 1] =
      List.range (vl.length + 2) := by
    rw [List.range_succ, List.range_succ, List.append_assoc]
    rfl
  rw [heq] at h2
  refine List.Perm.trans ?_ h2
  rw [vocabShape, List.map_append, List.append_assoc]
  rfl

theorem space_not_mem_shape_keys (vl : List Char) :
    " " ∉ (vocabShape vl).map Prod.fst := by
  rw [vocabShape, List.map_append]
  intro hm
  rcases List.mem_append.1 hm with hm | hm
  · exact not_mem_keys_dictDel (enumDict 0 vl) " " hm
  · simp at hm

theorem vocabShape_get_space (vl : List Char) :
    dictGet (vocabShape vl) " " = none :=
  dictGet_eq_none (space_not_mem_shape_keys vl)

theorem vocabShape_get_bar (vl : List Char) (hbar : '|' ∉ vl) :
    dictGet (vocabShape vl) "|" = some (vl.indexOf ' ') := by
  rw [vocabShape, dictGet_append_of_not_mem_left]
  · rfl
  · intro hm
    rw [dictDel_keys, enumDict_keys] at hm
    exact bar_not_mem_keys vl hbar (List.mem_filter.1 hm).1

theorem special_not_mem_del_keys (vl : List Char) (s : String)
    (hs : s.data.length ≠ 1) :
    s ∉ (dictDel (enumDict 0 vl) " ").map Prod.fst := by
  intro hm
  rw [dictDel_keys, enumDict_keys] at hm
  obtain ⟨c, _, hcs⟩ := List.mem_map.1 (List.mem_filter.1 hm).1
  exact ne_toString_of_length c hs hcs.symm

theorem vocabShape_get_unk (vl : List Char) :
    dictGet (vocabShape vl) "[UNK]" = some vl.length := by
  rw [vocabShape, dictGet_append_of_not_mem_left
    (special_not_mem_del_keys vl "[UNK]" (by decide))]
  rfl

theorem vocabShape_get_pad (vl : List Char) :
    dictGet (vocabShape vl) "[PAD]" = some (vl.length + 1) := by
  rw [vocabShape, dictGet_append_of_not_mem_left
    (special_not_mem_del_keys vl "[PAD]" (by decide))]
  rfl

/-! ### Claims C2, C5, C9 -/

/-- C2 (amended): for every enumeration of the combined character set of the
two transcript collections, provided that set contains the space character
and does not contain the delimiter character `|`, the produced mapping's ids
are exactly the dense range `0..N-1` with no duplicates, no literal-space key
remains, the word delimiter `|` carries the id initially assigned to the
space, and `[UNK]` and `[PAD]` hold the two highest ids `N-2` and `N-1`. -/
theorem make_vocab_invariants_C2 (vl : List Char) (hnd : vl.Nodup)
    (hsp : ' ' ∈ vl) (hbar : '|' ∉ vl) :
    ∃ D, make_vocab vl = some D
      ∧ D.length = vl.length + 2
      ∧ (D.map Prod.snd).Perm (List.range D.length)
      ∧ dictGet D " " = none
      ∧ dictGet D "|" = dictGet (enumDict 0 vl) " "
      ∧ dictGet D "[UNK]" = some (D.length - 2)
      ∧ dictGet D "[PAD]" = some (D.length - 1) := by
  refine ⟨vocabShape vl, make_vocab_eq vl hnd hsp hbar,
    vocabShape_length vl hnd hsp, ?_, vocabShape_get_space vl, ?_, ?_, ?_⟩
  · rw [vocabShape_length vl hnd hsp]
    exact vocabShape_ids_perm vl hnd hsp
  · rw [vocabShape_get_bar vl hbar]
    symm
    simpa using dictGet_enumDict 0 vl ' ' hsp
  · rw [vocabShape_get_unk, vocabShape_length vl hnd hsp]
    rfl
  · rw [vocabShape_get_pad, vocabShape_length vl hnd hsp]
    rfl

/-- C2 witness: the invariants instantiated at the enumeration
`['a', ' ', 'b']` of the character set of transcripts such as
`["a b"]`. -/
theorem make_vocab_invariants_C2_witness :
    ∃ D, make_vocab ['a', ' ', 'b'] = some D
      ∧ D.length = (['a', ' ', 'b'] : List Char).length + 2
      ∧ (D.map Prod.snd).Perm (List.range D.length)
      ∧ dictGet D " " = none
      ∧ dictGet D "|" = dictGet (enumDict 0 ['a', ' ', 'b']) " "
      ∧ dictGet D "[UNK]" = some (D.length - 2)
      ∧ dictGet D "[PAD]" = some (D.length - 1) :=
  make_vocab_invariants_C2 ['a', ' ', 'b'] (by decide) (by decide) (by decide)

/-- C2 counterexample: for the transcript collections `["| a"]` and `[]`
(whose combined character set is `{'|', ' ', 'a'}`, here enumerated as
`['|', ' ', 'a']`), the produced mapping has a duplicate id (both `"a"` and
`"[UNK]"` get id 2) and its ids `[1, 2, 2, 3]` are not the dense range
`0..3`, because the delimiter write `vocab_dict["|"] = vocab_dict[" "]`
overwrites the id the enumeration had already given to the character `|`. -/
theorem make_vocab_invariants_C2_counterexample :
    (['|', ' ', 'a'] : List Char).Nodup
    ∧ (['|', ' ', 'a'] : List Char).toFinset =
        (extract_all_chars ["| a"] ++ extract_all_chars []).toFinset
    ∧ make_vocab ['|', ' ', 'a'] =
        some [("|", 1), ("a", 2), ("[UNK]", 2), ("[PAD]", 3)]
    ∧ ¬ (([("|", 1), ("a", 2), ("[UNK]", 2), ("[PAD]", 3)] :
          List (String × Nat)).map Prod.snd).Nodup
    ∧ ¬ (([("|", 1), ("a", 2), ("[UNK]", 2), ("[PAD]", 3)] :
          List (String × Nat)).map Prod.snd).Perm (List.range 4) := by
  refine ⟨by decide, by decide, by decide, by decide, ?_⟩
  intro h
  exact absurd h.nodup_iff.2 (by decide)

/-- C5: for every enumeration of the character set collected from train
transcripts `["hi there", "hi"]` and an empty-contribution test split, the
produced mapping's key set is exactly
`{h, i, t, e, r, |, [UNK], [PAD]}` and the id of the word delimiter `|`
equals the id initially assigned to the literal space. -/
theorem make_vocab_hi_there_C5 (vl : List Char) (hnd : vl.Nodup)
    (hset : vl.toFinset =
      (extract_all_chars ["hi there", "hi"] ++ extract_all_chars [""]).toFinset) :
    ∃ D, make_vocab vl = some D
      ∧ (D.map Prod.fst).toFinset =
          ({"h", "i", "t", "e", "r", "|", "[UNK]", "[PAD]"} : Finset String)
      ∧ dictGet D "|" = dictGet (enumDict 0 vl) " " := by
  have hsp : ' ' ∈ vl := by
    rw [← List.mem_toFinset, hset]
    decide
  have hbar : '|' ∉ vl := by
    rw [← List.mem_toFinset, hset]
    decide
  have hmap : (List.map Char.toString vl).toFinset = vl.toFinset.image Char.toString :=
    Multiset.toFinset_map Char.toString (vl : Multiset Char)
  refine ⟨vocabShape vl, make_vocab_eq vl hnd hsp hbar, ?_, ?_⟩
  · rw [vocabShape_keys, List.toFinset_append, List.toFinset_filter, hmap, hset,
      show (extract_all_chars ["hi there", "hi"] ++ extract_all_chars [""]).toFinset =
        ({'t', 'r', 'e', ' ', 'h', 'i'} : Finset Char) from by decide]
    decide
  · rw [vocabShape_get_bar vl hbar]
    symm
    simpa using dictGet_enumDict 0 vl ' ' hsp

/-- C5 witness: the scenario instantiated at the enumeration
`['h', 'i', ' ', 't', 'e', 'r']` of the collected character set. -/
theorem make_vocab_hi_there_C5_witness :
    ∃ D, make_vocab ['h', 'i', ' ', 't', 'e', 'r'] = some D
      ∧ (D.map Prod.fst).toFinset =
          ({"h", "i", "t", "e", "r", "|", "[UNK]", "[PAD]"} : Finset String)
      ∧ dictGet D "|" = dictGet (enumDict 0 ['h', 'i', ' ', 't', 'e', 'r']) " " :=
  make_vocab_hi_there_C5 ['h', 'i', ' ', 't', 'e', 'r'] (by decide) (by decide)

theorem intercalate_go_data (acc : String) (as : List String) :
    (String.intercalate.go acc " " as).data =
      acc.data ++ (as.map (fun a => ' ' :: a.data)).flatten := by
  induction as generalizing acc with
  | nil => simp [String.intercalate.go]
  | cons a t ih =>
    rw [String.intercalate.go, ih]
    simp [String.data_append]

theorem space_mem_intercalate (a b : String) (t : List String) :
    ' ' ∈ (String.intercalate " " (a :: b :: t)).toList := by
  show ' ' ∈ (String.intercalate.go a " " (b :: t)).data
  rw [intercalate_go_data]
  simp

theorem space_mem_extract_all_chars (ts : List String) (h : 2 ≤ ts.length) :
    ' ' ∈ extract_all_chars ts := by
  rw [extract_all_chars, List.mem_dedup]
  match ts, h with
  | a :: b :: t, _ => exact space_mem_intercalate a b t

theorem make_vocab_no_space (vl : List Char) (hsp : ' ' ∉ vl) :
    make_vocab vl = none := by
  have hnone : dictGet (enumDict 0 vl) " " = none := by
    apply dictGet_eq_none
    rw [enumDict_keys]
    intro hm
    obtain ⟨c, hc, hcs⟩ := List.mem_map.1 hm
    have hcs' : c.toString = (' ').toString := hcs
    exact hsp (char_toString_injective hcs' ▸ hc)
  simp only [make_vocab, hnone]

/-- C9: when the combined character set of the two transcript splits
contains no space, `make_vocab` fails with a key-lookup error at the
space-to-delimiter replacement (modelled by the `none` result); and
whenever either split has at least two records, the space inserted by
`" ".flatten` guarantees a space is collected and the failure cannot occur. -/
theorem make_vocab_space_C9 :
    (∀ (trainT testT : List String) (vl : List Char),
        vl.toFinset = (extract_all_chars trainT ++ extract_all_chars testT).toFinset →
        ' ' ∉ extract_all_chars trainT → ' ' ∉ extract_all_chars testT →
        make_vocab vl = none)
    ∧ (∀ (trainT testT : List String) (vl : List Char),
        vl.toFinset = (extract_all_chars trainT ++ extract_all_chars testT).toFinset →
        2 ≤ trainT.length ∨ 2 ≤ testT.length →
        make_vocab vl ≠ none) := by
  constructor
  · intro trainT testT vl hset h1 h2
    apply make_vocab_no_space
    intro hm
    have hm2 : ' ' ∈ extract_all_chars trainT ++ extract_all_chars testT := by
      rw [← List.mem_toFinset, ← hset, List.mem_toFinset]
      exact hm
    rcases List.mem_append.1 hm2 with h | h
    exacts [h1 h, h2 h]
  · intro trainT testT vl hset h2
    have hsp : ' ' ∈ vl := by
      rw [← List.mem_toFinset, hset, List.mem_toFinset, List.mem_append]
      rcases h2 with h | h
      · exact Or.inl (space_mem_extract_all_chars trainT h)
      · exact Or.inr (space_mem_extract_all_chars testT h)
    have hsome : dictGet (enumDict 0 vl) " " = some (vl.indexOf ' ') := by
      simpa using dictGet_enumDict 0 vl ' ' hsp
    simp only [make_vocab, hsome]
    exact fun h => Option.noConfusion h

/-- C9 witness: with space-free single transcripts `["ab"]` and `["cd"]`
the builder fails, while with the two-record train split `["a", "b"]` it
succeeds thanks to the joining space. -/
theorem make_vocab_space_C9_witness :
    make_vocab ['a', 'b', 'c', 'd'] = none
    ∧ make_vocab ['a', ' ', 'b'] ≠ none :=
  ⟨make_vocab_space_C9.1 ["ab"] ["cd"] ['a', 'b', 'c', 'd'] (by decide)
      (by decide) (by decide),
    make_vocab_space_C9.2 ["a", "b"] [] ['a', ' ', 'b'] (by decide)
      (Or.inl (by decide))⟩

/-! ## Audio loader (`speech_file_to_array_fn`) and encoder precondition
(`prepare_dataset`)

`speech_file_to_array_fn` reads the file at `batch["audio_path"]` as int16
samples, casts them to float32 and divides by 32768, and stores the constant
sampling rate 16000 and the transcript on the record.  A float32 carries 24
mantissa bits, so casting an int16 (at most 16 bits) and dividing by the
power of two 32768 are both exact; the division is therefore modelled
exactly by rational arithmetic.  `prepare_dataset` first asserts that all
records of the processing batch share one sampling rate and only then calls
the external `Wav2Vec2Processor` to encode speech and transcripts; the
processor itself is third-party code, passed here as the two parameters
`encodeInput` and `encodeLabels`. -/

/-- One raw dataset record: the int16 sample values of the file at
`audio_path`, and the transcript. -/
structure RawRecord where
  audio_samples : List Int
  transcript : String

/-- A record after `speech_file_to_array_fn`. -/
structure LoadedRecord where
  speech : List ℚ
  sampling_rate : Nat
  target_text : String

/-- Lines 28-35 of `train.py`. -/
def speech_file_to_array_fn (r : RawRecord) : LoadedRecord :=
  { speech := r.audio_samples.map (fun s : Int => (s : ℚ) / 32768)
  , sampling_rate := 16000
  , target_text := r.transcript }

/-- The asserted condition `len(set(batch["sampling_rate"])) == 1`. -/
def sameSamplingRate (rates : List Nat) : Bool :=
  rates.dedup.length == 1

/-- Result type of `prepare_dataset`. -/
structure PreparedBatch where
  input_values : List (List ℚ)
  labels : List (List Int)

/-- Lines 107-117 of `train.py`: assert equal sampling rates, then encode
speech (passing `batch["sampling_rate"][0]`) and transcripts through the
external processor.  A failed `assert` raises before any encoding runs,
modelled by the `Except.error` branch. -/
def prepare_dataset (encodeInput : List (List ℚ) → Nat → List (List ℚ))
    (encodeLabels : List String → List (List Int))
    (batch : List LoadedRecord) : Except String PreparedBatch :=
  if sameSamplingRate (batch.map (·.sampling_rate)) then
    Except.ok
      { input_values := encodeInput (batch.map (·.speech))
          ((batch.map (·.sampling_rate)).headD 0)
      , labels := encodeLabels (batch.map (·.target_text)) }
  else
    Except.error "Make sure all inputs have the same sampling rate of 16000."

/-! ### Claims C3, C4, C8 -/

/-- C3: decoding int16 PCM samples by casting and dividing by 32768 lands in
`[-1, 1)`, and re-scaling by 32768 and rounding recovers the original
samples exactly. -/
theorem pcm_roundtrip_C3 (r : RawRecord)
    (hs : ∀ s ∈ r.audio_samples, -32768 ≤ s ∧ s < 32768) :
    (∀ x ∈ (speech_file_to_array_fn r).speech, -1 ≤ x ∧ x < 1)
    ∧ (speech_file_to_array_fn r).speech.map (fun x => round (x * 32768)) =
        r.audio_samples := by
  constructor
  · intro x hx
    obtain ⟨s, hsm, rfl⟩ := List.mem_map.1 hx
    obtain ⟨h1, h2⟩ := hs s hsm
    constructor
    · rw [le_div_iff₀ (by norm_num : (0 : ℚ) < 32768)]
      calc (-1 : ℚ) * 32768 = ((-32768 : Int) : ℚ) := by norm_num
        _ ≤ s := by exact_mod_cast h1
    · rw [div_lt_one (by norm_num : (0 : ℚ) < 32768)]
      exact_mod_cast h2
  · rw [speech_file_to_array_fn]
    simp only [List.map_map]
    apply List.map_id''
    intro s
    simp only [Function.comp_apply]
    rw [div_mul_cancel₀ _ (by norm_num : (32768 : ℚ) ≠ 0), round_intCast]

/-- C3 witness: the round trip evaluated on the extreme and typical samples
`[-32768, 0, 12345, 32767]`. -/
theorem pcm_roundtrip_C3_witness :
    (∀ x ∈ (speech_file_to_array_fn ⟨[-32768, 0, 12345, 32767], "hi"⟩).speech,
        -1 ≤ x ∧ x < 1)
    ∧ (speech_file_to_array_fn ⟨[-32768, 0, 12345, 32767], "hi"⟩).speech.map
        (fun x => round (x * 32768)) = [-32768, 0, 12345, 32767] :=
  pcm_roundtrip_C3 ⟨[-32768, 0, 12345, 32767], "hi"⟩ (by decide)

theorem dedup_length_one_iff {α : Type} [DecidableEq α] (l : List α)
    (h : l ≠ []) : l.dedup.length = 1 ↔ ∀ a ∈ l, ∀ b ∈ l, a = b := by
  rw [← List.card_toFinset, Finset.card_eq_one]
  constructor
  · rintro ⟨a, ha⟩ x hx y hy
    have hxa : x = a := by
      have := List.mem_toFinset.2 hx
      rw [ha, Finset.mem_singleton] at this
      exact this
    have hya : y = a := by
      have := List.mem_toFinset.2 hy
      rw [ha, Finset.mem_singleton] at this
      exact this
    rw [hxa, hya]
  · intro hall
    match l, h with
    | c :: t, _ =>
      refine ⟨c, Finset.ext fun x => ?_⟩
      rw [List.mem_toFinset, Finset.mem_singleton]
      constructor
      · intro hx
        exact hall x hx c (List.mem_cons_self c t)
      · rintro rfl
        exact List.mem_cons_self x t

theorem sameSamplingRate_iff (batch : List LoadedRecord) (h : batch ≠ []) :
    sameSamplingRate (batch.map (·.sampling_rate)) = true ↔
      ∀ a ∈ batch, ∀ b ∈ batch, a.sampling_rate = b.sampling_rate := by
  have hne : batch.map (·.sampling_rate) ≠ [] := by
    simpa using h
  rw [sameSamplingRate, beq_iff_eq, dedup_length_one_iff _ hne]
  constructor
  · intro hall a ha b hb
    exact hall _ (List.mem_map_of_mem _ ha) _ (List.mem_map_of_mem _ hb)
  · intro hall x hx y hy
    obtain ⟨a, ha, rfl⟩ := List.mem_map.1 hx
    obtain ⟨b, hb, rfl⟩ := List.mem_map.1 hy
    exact hall a ha b hb

/-- C4: for a non-empty processing batch, `prepare_dataset` succeeds exactly
when all records share one sampling rate; a mismatch takes the assertion's
error branch before any encoding function is applied. -/
theorem prepare_dataset_rate_check_C4
    (encodeInput : List (List ℚ) → Nat → List (List ℚ))
    (encodeLabels : List String → List (List Int))
    (batch : List LoadedRecord) (hne : batch ≠ []) :
    ((prepare_dataset encodeInput encodeLabels batch).isOk = true ↔
      ∀ a ∈ batch, ∀ b ∈ batch, a.sampling_rate = b.sampling_rate)
    ∧ (¬ (∀ a ∈ batch, ∀ b ∈ batch, a.sampling_rate = b.sampling_rate) →
      prepare_dataset encodeInput encodeLabels batch =
        Except.error "Make sure all inputs have the same sampling rate of 16000.") := by
  rw [← sameSamplingRate_iff batch hne]
  by_cases hc : sameSamplingRate (batch.map (·.sampling_rate)) = true
  · constructor
    · simp [prepare_dataset, hc, Except.isOk, Except.toBool]
    · intro hfalse
      exact absurd hc hfalse
  · constructor
    · simp [prepare_dataset, hc, Except.isOk, Except.toBool]
    · intro _
      simp [prepare_dataset, hc]

/-- C4 witness: a two-record batch with rates 16000 and 8000 is rejected,
matching the right-hand side being false. -/
theorem prepare_dataset_rate_check_C4_witness :
    ((prepare_dataset (fun _ _ => []) (fun _ => [])
        [⟨[], 16000, "a"⟩, ⟨[], 8000, "b"⟩]).isOk = true ↔
      ∀ a ∈ ([⟨[], 16000, "a"⟩, ⟨[], 8000, "b"⟩] : List LoadedRecord),
        ∀ b ∈ ([⟨[], 16000, "a"⟩, ⟨[], 8000, "b"⟩] : List LoadedRecord),
          a.sampling_rate = b.sampling_rate)
    ∧ (¬ (∀ a ∈ ([⟨[], 16000, "a"⟩, ⟨[], 8000, "b"⟩] : List LoadedRecord),
        ∀ b ∈ ([⟨[], 16000, "a"⟩, ⟨[], 8000, "b"⟩] : List LoadedRecord),
          a.sampling_rate = b.sampling_rate) →
      prepare_dataset (fun _ _ => []) (fun _ => [])
          [⟨[], 16000, "a"⟩, ⟨[], 8000, "b"⟩] =
        Except.error "Make sure all inputs have the same sampling rate of 16000.") :=
  prepare_dataset_rate_check_C4 (fun _ _ => []) (fun _ => [])
    [⟨[], 16000, "a"⟩, ⟨[], 8000, "b"⟩] (by simp)

/-- C8: the loader stores the constant sampling rate 16000 on every record,
so any non-empty batch of loader outputs passes the sampling-rate assertion
and `prepare_dataset` never takes its error branch on them. -/
theorem loader_fixed_rate_C8
    (encodeInput : List (List ℚ) → Nat → List (List ℚ))
    (encodeLabels : List String → List (List Int))
    (recs : List RawRecord) (hne : recs ≠ []) :
    (∀ r ∈ recs, (speech_file_to_array_fn r).sampling_rate = 16000)
    ∧ sameSamplingRate
        ((recs.map speech_file_to_array_fn).map (·.sampling_rate)) = true
    ∧ (prepare_dataset encodeInput encodeLabels
        (recs.map speech_file_to_array_fn)).isOk = true := by
  have hmapne : recs.map speech_file_to_array_fn ≠ [] := by
    simpa using hne
  have hsame : sameSamplingRate
      ((recs.map speech_file_to_array_fn).map (·.sampling_rate)) = true := by
    rw [sameSamplingRate_iff _ hmapne]
    intro a ha b hb
    obtain ⟨ra, _, rfl⟩ := List.mem_map.1 ha
    obtain ⟨rb, _, rfl⟩ := List.mem_map.1 hb
    rfl
  refine ⟨fun r _ => rfl, hsame, ?_⟩
  rw [prepare_dataset, if_pos hsame]
  rfl

/-- C8 witness: a singleton batch through the loader passes the check. -/
theorem loader_fixed_rate_C8_witness :
    (∀ r ∈ ([⟨[7, -3], "hello"⟩] : List RawRecord),
      (speech_file_to_array_fn r).sampling_rate = 16000)
    ∧ sameSamplingRate
        (([⟨[7, -3], "hello"⟩] : List RawRecord).map speech_file_to_array_fn
          |>.map (·.sampling_rate)) = true
    ∧ (prepare_dataset (fun _ _ => []) (fun _ => [])
        (([⟨[7, -3], "hello"⟩] : List RawRecord).map speech_file_to_array_fn)).isOk
        = true :=
  loader_fixed_rate_C8 (fun _ _ => []) (fun _ => []) [⟨[7, -3], "hello"⟩] (by simp)

/-! ## CTC batch collator (`DataCollatorCTCWithPadding.__call__`)

The collator splits each feature into its input part and its label part and
delegates padding to the external `transformers` `processor.pad`.  In
`train()` the collator is constructed as
`DataCollatorCTCWithPadding(processor=processor, padding=True)`, so
`padding=True` (pad to the longest sequence of the batch) and
`max_length`, `pad_to_multiple_of` and their label variants are all `None`.
Modelled from the spec: under that configuration `processor.pad` right-pads
every sequence to the maximum length present in the batch (padding value
0.0 for inputs, the tokenizer's pad id for labels) and returns the
companion 1/0 attention mask.  The collator's own final step
`masked_fill(attention_mask.ne(1), -100)` is taken from the source. -/

/-- One encoded example handed to the collator. -/
structure CTCExample where
  input_values : List ℚ
  labels : List Int

/-- The collated batch returned by `__call__`. -/
structure CTCBatch where
  input_values : List (List ℚ)
  attention_mask : List (List Nat)
  labels : List (List Int)

/-- Modelled from the spec: right-pad a sequence to length `n` with the
padding value `pad` (`processor.pad` with `padding=True`). -/
def padTo {α : Type} (pad : α) (n : Nat) (xs : List α) : List α :=
  xs ++ List.replicate (n - xs.length) pad

/-- Modelled from the spec: the attention mask accompanying `padTo`:
1 on real positions, 0 on padded ones. -/
def attentionMask {α : Type} (n : Nat) (xs : List α) : List Nat :=
  List.replicate xs.length 1 ++ List.replicate (n - xs.length) 0

/-- The maximum sequence length in a batch (0 for an empty batch). -/
def batchMaxLen {α : Type} (xss : List (List α)) : Nat :=
  (xss.map List.length).foldr max 0

/-- The collator's configuration: `padTokenId` stands for the pad id the
processor's tokenizer uses when padding label sequences.  The remaining
dataclass fields are fixed at the single construction site
(`padding=True`, all length options `None`) and are absorbed into the
padding model above. -/
structure DataCollatorCTCWithPadding where
  padTokenId : Int

/-- Lines 145-174 of `train.py`: `__call__`. -/
def DataCollatorCTCWithPadding.call (c : DataCollatorCTCWithPadding)
    (features : List CTCExample) : CTCBatch :=
  let input_features := features.map (·.input_values)
  let label_features := features.map (·.labels)
  let maxInput := batchMaxLen input_features
  let maxLabel := batchMaxLen label_features
  let labels_batch_ids := label_features.map (padTo c.padTokenId maxLabel)
  let labels_batch_mask := label_features.map (attentionMask maxLabel)
  let labels := List.zipWith
    (fun row mask =>
      List.zipWith (fun v m => if m ≠ 1 then (-100 : Int) else v) row mask)
    labels_batch_ids labels_batch_mask
  { input_values := input_features.map (padTo (0 : ℚ) maxInput)
  , attention_mask := input_features.map (attentionMask maxInput)
  , labels := labels }

/-- State-passing form of `__call__`: the dataclass instance is carried
through the call unchanged, making the absence of hidden state explicit. -/
def DataCollatorCTCWithPadding.callSt (c : DataCollatorCTCWithPadding)
    (features : List CTCExample) : CTCBatch × DataCollatorCTCWithPadding :=
  (c.call features, c)

/-! ### Collator row lemmas -/

theorem zipWith_keep (l : List Int) :
    List.zipWith (fun v m => if m ≠ 1 then (-100 : Int) else v) l
      (List.replicate l.length 1) = l := by
  induction l with
  | nil => rfl
  | cons x t ih => simpa [List.replicate_succ] using ih

theorem zipWith_fill (padId : Int) (k : Nat) :
    List.zipWith (fun v m => if m ≠ 1 then (-100 : Int) else v)
      (List.replicate k padId) (List.replicate k 0) =
      List.replicate k (-100) := by
  induction k with
  | zero => rfl
  | succ n ih => simp [List.replicate_succ, ih]

theorem zip_mask_row (padId : Int) (M : Nat) (l : List Int) :
    List.zipWith (fun v m => if m ≠ 1 then (-100 : Int) else v)
      (padTo padId M l) (attentionMask M l) =
      l ++ List.replicate (M - l.length) (-100) := by
  rw [padTo, attentionMask,
    List.zipWith_append _ _ _ _ _ (List.length_replicate _ _).symm,
    zipWith_keep, zipWith_fill]

theorem length_le_batchMaxLen {α : Type} (xss : List (List α)) (xs : List α)
    (h : xs ∈ xss) : xs.length ≤ batchMaxLen xss := by
  induction xss with
  | nil => cases h
  | cons y t ih =>
    rw [batchMaxLen, List.map_cons, List.foldr_cons]
    cases h with
    | head => exact le_max_left _ _
    | tail _ h => exact le_trans (ih h) (le_max_right _ _)

theorem call_input_values_eq (c : DataCollatorCTCWithPadding)
    (features : List CTCExample) :
    (c.call features).input_values = features.map (fun f =>
      f.input_values ++ List.replicate
        (batchMaxLen (features.map (·.input_values)) - f.input_values.length)
        (0 : ℚ)) := by
  rw [DataCollatorCTCWithPadding.call]
  simp only [List.map_map]
  apply List.map_congr_left
  intro f _
  rfl

theorem call_labels_eq (c : DataCollatorCTCWithPadding)
    (features : List CTCExample) :
    (c.call features).labels = features.map (fun f =>
      f.labels ++ List.replicate
        (batchMaxLen (features.map (·.labels)) - f.labels.length)
        (-100 : Int)) := by
  rw [DataCollatorCTCWithPadding.call]
  simp only [List.zipWith_map, List.zipWith_same, List.map_map]
  apply List.map_congr_left
  intro f _
  exact zip_mask_row c.padTokenId _ f.labels

/-! ### Claims C1, C6, C7 -/

/-- C1: on any (in particular non-empty) batch, each collated input row is
the original sequence right-padded with 0.0 to the batch's maximum input
length, each collated label row is the original labels right-padded with
the sentinel -100 to the batch's maximum label length, and both tensors are
rectangular with those row lengths. -/
theorem collate_pad_shape_C1 (c : DataCollatorCTCWithPadding)
    (features : List CTCExample) (i : Nat) (f : CTCExample)
    (hf : features[i]? = some f) :
    ((c.call features).input_values[i]? =
        some (f.input_values ++ List.replicate
          (batchMaxLen (features.map (·.input_values)) - f.input_values.length)
          (0 : ℚ)))
    ∧ ((c.call features).labels[i]? =
        some (f.labels ++ List.replicate
          (batchMaxLen (features.map (·.labels)) - f.labels.length)
          (-100 : Int)))
    ∧ (∀ row ∈ (c.call features).input_values,
        row.length = batchMaxLen (features.map (·.input_values)))
    ∧ (∀ row ∈ (c.call features).labels,
        row.length = batchMaxLen (features.map (·.labels))) := by
  refine ⟨?_, ?_, ?_, ?_⟩
  · rw [call_input_values_eq, List.getElem?_map, hf]
    rfl
  · rw [call_labels_eq, List.getElem?_map, hf]
    rfl
  · intro row hrow
    rw [call_input_values_eq] at hrow
    obtain ⟨g, hg, rfl⟩ := List.mem_map.1 hrow
    have hle : g.input_values.length ≤ batchMaxLen (features.map (·.input_values)) :=
      length_le_batchMaxLen _ _ (List.mem_map_of_mem _ hg)
    rw [List.length_append, List.length_replicate]
    omega
  · intro row hrow
    rw [call_labels_eq] at hrow
    obtain ⟨g, hg, rfl⟩ := List.mem_map.1 hrow
    have hle : g.labels.length ≤ batchMaxLen (features.map (·.labels)) :=
      length_le_batchMaxLen _ _ (List.mem_map_of_mem _ hg)
    rw [List.length_append, List.length_replicate]
    omega

/-- C1 witness: the spec's concrete scenario — label sequences `[1, 2, 3]`
and `[4, 5]` collate to rows `[1, 2, 3]` and `[4, 5, -100]`. -/
theorem collate_pad_shape_C1_witness :
    ((DataCollatorCTCWithPadding.call ⟨0⟩
        [⟨[5], [1, 2, 3]⟩, ⟨[7, 9], [4, 5]⟩]).input_values[1]? =
      some [7, 9])
    ∧ ((DataCollatorCTCWithPadding.call ⟨0⟩
        [⟨[5], [1, 2, 3]⟩, ⟨[7, 9], [4, 5]⟩]).labels[1]? =
      some [4, 5, -100])
    ∧ (∀ row ∈ (DataCollatorCTCWithPadding.call ⟨0⟩
        [⟨[5], [1, 2, 3]⟩, ⟨[7, 9], [4, 5]⟩]).input_values, row.length = 2)
    ∧ (∀ row ∈ (DataCollatorCTCWithPadding.call ⟨0⟩
        [⟨[5], [1, 2, 3]⟩, ⟨[7, 9], [4, 5]⟩]).labels, row.length = 3) :=
  collate_pad_shape_C1 ⟨0⟩ [⟨[5], [1, 2, 3]⟩, ⟨[7, 9], [4, 5]⟩] 1
    ⟨[7, 9], [4, 5]⟩ rfl

/-- C6: an example with an empty label sequence is accepted (the collator
is total on it) and its collated label row is entirely the sentinel
-100. -/
theorem collate_empty_labels_C6 (c : DataCollatorCTCWithPadding)
    (features : List CTCExample) (i : Nat) (f : CTCExample)
    (hf : features[i]? = some f) (hempty : f.labels = []) :
    (c.call features).labels[i]? =
      some (List.replicate (batchMaxLen (features.map (·.labels))) (-100 : Int)) := by
  rw [call_labels_eq, List.getElem?_map, hf]
  simp [hempty]

/-- C6 witness: an empty-transcript example next to labels `[1, 2]`
collates to the all-sentinel row `[-100, -100]`. -/
theorem collate_empty_labels_C6_witness :
    (DataCollatorCTCWithPadding.call ⟨0⟩
        [⟨[5], [1, 2]⟩, ⟨[7], []⟩]).labels[1]? =
      some (List.replicate 2 (-100 : Int)) :=
  collate_empty_labels_C6 ⟨0⟩ [⟨[5], [1, 2]⟩, ⟨[7], []⟩] 1 ⟨[7], []⟩ rfl rfl

/-- C7: the collator call is a pure, deterministic function of the
dataclass configuration and the feature list: threading the collator state
through a call returns it unchanged, and a second call on the same list
(with the state returned by the first) produces an identical batch. -/
theorem collator_deterministic_C7 (c : DataCollatorCTCWithPadding)
    (features : List CTCExample) :
    (c.callSt features).2 = c
    ∧ ((c.callSt features).2.callSt features).1 = (c.callSt features).1
    ∧ (∀ c' : DataCollatorCTCWithPadding, c' = c →
        (c'.callSt features).1 = (c.callSt features).1) :=
  ⟨rfl, rfl, fun _ h => h ▸ rfl⟩

/-! ## Metric computation (`compute_metrics`)

The CER metric object and the tokenizer's `batch_decode` are external
collaborators and enter as parameters (`batchDecode` takes the
`group_tokens` flag: `True` for predictions, `False` for references).  The
numpy in-place write `pred.label_ids[pred.label_ids == -100] = pad_token_id`
mutates the caller's array; the post-call state of the `pred` argument is
returned alongside the metric dict.  `pad_token_id` is a vocabulary id,
hence a natural number. -/

/-- The prediction object handed to `compute_metrics`: per-example,
per-frame logits over the vocabulary, and per-example label ids. -/
structure EvalPrediction where
  predictions : List (List (List ℚ))
  label_ids : List (List Int)

/-- Helper of `npArgmax`: scan remembering the best index and value. -/
def npArgmaxAux : Nat → ℚ → Nat → List ℚ → Nat
  | best, _, _, [] => best
  | best, bv, i, x :: xs =>
    if bv < x then npArgmaxAux i x (i + 1) xs else npArgmaxAux best bv (i + 1) xs

/-- `np.argmax` over one logit vector: index of the first maximum. -/
def npArgmax : List ℚ → Nat
  | [] => 0
  | x :: xs => npArgmaxAux 0 x 1 xs

/-- Lines 12-21 of `train.py`. -/
def compute_metrics (pad_token_id : Nat)
    (batchDecode : Bool → List (List Int) → List String)
    (cerCompute : List String → List String → ℚ)
    (pred : EvalPrediction) : ℚ × EvalPrediction :=
  let pred_ids := pred.predictions.map
    (fun frames => frames.map (fun logits => (npArgmax logits : Int)))
  let new_label_ids := pred.label_ids.map (fun row =>
    row.map (fun v => if v = -100 then (pad_token_id : Int) else v))
  let pred' : EvalPrediction :=
    { predictions := pred.predictions, label_ids := new_label_ids }
  let pred_str := batchDecode true pred_ids
  let label_str := batchDecode false pred'.label_ids
  (cerCompute pred_str label_str, pred')

/-! ### Claim C10 -/

/-- C10: `compute_metrics` mutates its argument's `label_ids` in place,
replacing every -100 sentinel by the tokenizer's pad id, so afterwards the
caller's label array holds no -100 at all; the `predictions` field is left
unchanged. -/
theorem compute_metrics_mutation_C10 (pad_token_id : Nat)
    (batchDecode : Bool → List (List Int) → List String)
    (cerCompute : List String → List String → ℚ)
    (pred : EvalPrediction) :
    ((compute_metrics pad_token_id batchDecode cerCompute pred).2.label_ids =
        pred.label_ids.map (fun row =>
          row.map (fun v => if v = -100 then (pad_token_id : Int) else v)))
    ∧ (∀ row ∈ (compute_metrics pad_token_id batchDecode cerCompute
        pred).2.label_ids, (-100 : Int) ∉ row)
    ∧ (compute_metrics pad_token_id batchDecode cerCompute
        pred).2.predictions = pred.predictions := by
  refine ⟨rfl, ?_, rfl⟩
  intro row hrow hneg
  obtain ⟨row₀, _, rfl⟩ := List.mem_map.1 hrow
  obtain ⟨v, _, hv⟩ := List.mem_map.1 hneg
  by_cases h : v = -100
  · rw [if_pos h] at hv
    have hnn : (0 : Int) ≤ (pad_token_id : Int) := Int.ofNat_nonneg pad_token_id
    omega
  · rw [if_neg h] at hv
    exact h hv

end Wav2Vec2FT
